import Mathlib

/-!
# Verification of `equation.py` (n360_equation)

A shallow embedding of the equation-canonicalization pipeline of
`src/equation.py`: the term grammar (`POLY_TERM`, `ALL_VARS_POLY_TERM`),
`process_term`, and the `Equation` class (`_validate_equation`,
`_sanitize_equation`, `_process_equation`, `__init__`, `canonicalize`),
together with theorems about the specified behaviour.

Conventions of the embedding:
* Python strings are Lean `String`s; character-level work happens on
  `List Char` (`String.toList` / `String.mk`).
* A Python function that can raise returns `Except PyError _`; the raised
  exception class and its message are carried in the `PyError` value.
* The regular expressions `POLY_TERM` and `ALL_VARS_POLY_TERM` are embedded
  as a deterministic left-to-right matcher (`matchPolyTerm`).  Every group
  of the pattern is optional and nothing follows the final group, so
  the backtracking matcher of CPython never needs to undo a greedy choice: the
  result of `re.match` is exactly the greedy max-munch parse modelled here.
  (The one non-trivial backtracking point, `[eE][-+]?\d+` on input such as
  `e+x`, fails with and without the optional sign, which the embedding
  mirrors by failing when no digits follow the sign.)
* `\d`, `[a-z]` are modelled over ASCII (`Char.isDigit`, `Char.isLower`);
  all pipeline inputs that reach the matchers are ASCII by validation.
-/

/-- The exceptions `equation.py` can raise while constructing an
`Equation`.  `ValueError` is the Python built-in, raised by the tuple
unpacking `self.left_hand_side, self.right_hand_side = ....split('=')`
when the split does not yield exactly two pieces. -/
inductive PyError where
  | NoEquationError (msg : String)
  | InvalidEquationError (msg : String)
  | InvalidTermInEquationError (msg : String)
  | UnexpectedVariableNamesError (msg : String)
  | ValueError (msg : String)
deriving DecidableEq, Repr

deriving instance DecidableEq for Except

/-- The alphabet `VAR_NAMES = ['t', 'u', 'v', 'w', 'x', 'y', 'z']`.  The source keeps
the names as one-character strings; membership tests (`var_name in
term.groups()[4]`) on one-character strings are character membership, so
the alphabet is modelled as characters. -/
def VAR_NAMES : List Char := ['t', 'u', 'v', 'w', 'x', 'y', 'z']

/-- The number part of the coefficient group: `(\d+(\.\d*)?|\.\d+)`.
Returns the captured characters and the remaining input; `none` when the
group does not participate in the match. -/
def matchNumber (l : List Char) : Option (List Char × List Char) :=
  let ds := l.takeWhile Char.isDigit
  let r1 := l.dropWhile Char.isDigit
  if ds.isEmpty then
    -- first alternative `\d+...` needs at least one digit; try `\.\d+`
    match l with
    | '.' :: t =>
      let ds2 := t.takeWhile Char.isDigit
      if ds2.isEmpty then none
      else some ('.' :: ds2, t.dropWhile Char.isDigit)
    | _ => none
  else
    match r1 with
    | '.' :: t =>
      -- `(\.\d*)?`: the fractional digits may be empty
      let ds2 := t.takeWhile Char.isDigit
      some (ds ++ '.' :: ds2, t.dropWhile Char.isDigit)
    | _ => some (ds, r1)

/-- The scientific-notation suffix `([eE][-+]?\d+)?` of the coefficient
group.  When digits are missing after the (optional) sign the whole
suffix fails — with a sign present, Python also retries without the sign
and then stops at the sign character, failing all the same. -/
def matchSci (l : List Char) : Option (List Char × List Char) :=
  match l with
  | [] => none
  | e :: t =>
    if e = 'e' ∨ e = 'E' then
      match t with
      | [] => none
      | s :: t2 =>
        if s = '+' ∨ s = '-' then
          let ds := t2.takeWhile Char.isDigit
          if ds.isEmpty then none
          else some (e :: s :: ds, t2.dropWhile Char.isDigit)
        else
          let ds := t.takeWhile Char.isDigit
          if ds.isEmpty then none
          else some (e :: ds, t.dropWhile Char.isDigit)
    else none

/-- Group 1 of `POLY_TERM` (`term.groups()[0]`): the full coefficient,
number plus optional scientific suffix. -/
def matchCoef (l : List Char) : Option (List Char) × List Char :=
  match matchNumber l with
  | none => (none, l)
  | some (num, r) =>
    match matchSci r with
    | none => (some num, r)
    | some (sci, r2) => (some (num ++ sci), r2)

/-- The variable group (`([tuvwxyz]+)?` resp. `([a-z]+)?`,
`term.groups()[4]`): greedy run of characters accepted by `p`, `none`
when empty. -/
def varsSplit (p : Char → Bool) (l : List Char) : Option (List Char) × List Char :=
  let vs := l.takeWhile p
  (if vs.isEmpty then none else some vs, l.dropWhile p)

/-- The trailing `(\^)?(\d+)?` of the pattern (`term.groups()[5]` and
`term.groups()[6]`).  Note `(\d+)?` can capture digits even when the
caret group did not participate (e.g. token `x2`). -/
def expSplit : List Char → Bool × Option (List Char) × List Char
  | [] => (false, none, [])
  | c :: t =>
    if c = '^' then
      let ds := t.takeWhile Char.isDigit
      (true, if ds.isEmpty then none else some ds, t.dropWhile Char.isDigit)
    else
      let ds := (c :: t).takeWhile Char.isDigit
      (false, if ds.isEmpty then none else some ds, (c :: t).dropWhile Char.isDigit)

/-- The groups of a `re.match` of `POLY_TERM` / `ALL_VARS_POLY_TERM`
against a token, plus the matched prefix and the unmatched tail (the
pattern is anchored at the start of the token but not at its end). -/
structure TermGroups where
  /-- `term.groups()[0]`: the coefficient. -/
  coefficient : Option (List Char)
  /-- `term.groups()[4]`: the variable run (the `variables` of the source; `variables` is reserved in Lean). -/
  vars : Option (List Char)
  /-- `term.groups()[5]`: whether `(\^)?` matched. -/
  caret : Bool
  /-- `term.groups()[6]`: the exponent digits. -/
  exponent : Option (List Char)
  /-- The text consumed by the match (`match.group(0)`). -/
  matched : List Char
  /-- The unconsumed tail of the token, silently left unmatched. -/
  rest : List Char
deriving DecidableEq, Repr

/-- A `re.match` of the term pattern with variable class `p` against a
token.  `POLY_TERM` and `ALL_VARS_POLY_TERM` differ only in `p`. -/
def matchPolyTerm (p : Char → Bool) (l : List Char) : TermGroups :=
  let cr := matchCoef l
  let vr := varsSplit p cr.2
  let er := expSplit vr.2
  { coefficient := cr.1
    vars := vr.1
    caret := er.1
    exponent := er.2.1
    matched := cr.1.getD [] ++ vr.1.getD [] ++ (if er.1 then ['^'] else []) ++ (er.2.1.getD [])
    rest := er.2.2 }

/-- The match `re.match(POLY_TERM, token)`: variables restricted to `VAR_NAMES`. -/
def polyTermMatch (l : List Char) : TermGroups :=
  matchPolyTerm (fun c => VAR_NAMES.contains c) l

/-- The match `re.match(ALL_VARS_POLY_TERM, token)`: variables may be any
lowercase letters. -/
def allVarsTermMatch (l : List Char) : TermGroups :=
  matchPolyTerm Char.isLower l

/-- The join of one-character strings with a `*` separator, as in the
source expression `"*".join(...)` (written here with double quotes). -/
def joinStar : List Char → List Char
  | [] => []
  | [c] => [c]
  | c :: d :: t => c :: '*' :: joinStar (d :: t)

/-- The `%s` rendering of a `re.Match` object, as interpolated into the
`InvalidTermInEquationError` message (the source formats the match
object itself, not the token).  `\x27` is the ASCII apostrophe CPython
uses to quote the matched text. -/
def matchRepr (m : List Char) : String :=
  "<re.Match object; span=(0, " ++ toString m.length ++ "), match=\x27" ++ String.mk m ++ "\x27>"

/-- The function `process_term(token)`: prepare a polynomial term for symbolic
computation.  Faithful to the order of checks in the source: the
unknown-variable comparison of the two matches, the
exponent-without-digits check, the exponent rendering, the early return
for a coefficient-only term (which drops any rendered exponent), then
the implicit-multiplication expansion. -/
def process_term (token : String) : Except PyError String :=
  let term := polyTermMatch token.toList
  let no_term := allVarsTermMatch token.toList
  if no_term.vars.isSome && term.vars.isNone then
    .error (.UnexpectedVariableNamesError
      ("unexpected variable in term " ++ token ++ ". accepted variable names are: "
        ++ String.intercalate ", " (VAR_NAMES.map Char.toString)))
  else if term.caret && term.exponent.isNone then
    .error (.InvalidTermInEquationError
      ("exponentiation with no exponent in term " ++ matchRepr term.matched))
  else
    let exponentiation : List Char :=
      if term.caret && term.exponent.isSome then '*' :: '*' :: term.exponent.getD [] else []
    if term.coefficient.isSome && term.vars.isNone then
      .ok (String.mk (term.coefficient.getD []))
    else
      let coefficient : List Char :=
        if term.coefficient.isSome && term.vars.isSome then term.coefficient.getD [] ++ ['*']
        else []
      -- `if term.groups()[4]:` with its two inner `if`s on
      -- `Counter([vn in g4 for vn in VAR_NAMES])[True]`, the number of
      -- alphabet symbols occurring in the captured variable run
      let g4 : List Char := term.vars.getD []
      let varProduct : List Char :=
        if term.vars.isSome then
          if (VAR_NAMES.filter (fun vn => g4.contains vn)).length = 1 then g4
          else if 1 < (VAR_NAMES.filter (fun vn => g4.contains vn)).length then
            joinStar (VAR_NAMES.filter (fun vn => g4.contains vn))
          else []
        else []
      .ok (String.mk (coefficient ++ varProduct ++ exponentiation))

/-- An `Equation` as constructed by `Equation.__init__`: after
validation, `self.equation` holds the sanitized text and the two sides
come from splitting the processed equation on `=`. -/
structure Equation where
  equation : String
  left_hand_side : String
  right_hand_side : String
deriving DecidableEq, Repr

/-- The delimiter class of `POLY_SPLIT`:
`(\+|-|\(|\)|\[|\]|\{|\}|=)`. -/
def STRUCTURAL : List Char := ['+', '-', '(', ')', '[', ']', '\x7b', '\x7d', '=']

/-- A character the tokenizer treats as structural. -/
def isStructuralChar (c : Char) : Bool := STRUCTURAL.contains c

/-- The char class of `POLY_VALID`:
`[a-z0-9 =\-\+\*\^\(\)\[\]\{\}\.,]`. -/
def polyValidChar (c : Char) : Bool :=
  c.isLower || c.isDigit || c = ' ' || c = '=' || c = '-' || c = '+' || c = '*' || c = '^'
    || c = '(' || c = ')' || c = '[' || c = ']' || c = '\x7b' || c = '\x7d' || c = '.' || c = ','

/-- The test `re.match(POLY_VALID, s)` as a predicate.  The pattern is
`^[...]+$`; with no `re.MULTILINE`, `$` also matches just before one
final newline, modelled by dropping a single trailing `\n` before
requiring a non-empty all-valid body. -/
def polyValidMatch (s : String) : Bool :=
  let l := s.toList
  let body := if l.getLast? = some '\n' then l.dropLast else l
  !body.isEmpty && body.all polyValidChar

/-- Whether `pre` is the initial segment of `l` (used for the Python
substring `count` truthiness tests). -/
def listStartsWith (pre l : List Char) : Bool :=
  decide (l.take pre.length = pre)

/-- The truthiness of `s.count(sub)` for a non-empty `sub`: some suffix of `s` starts
with `sub`. -/
def hasSubstr (pre : List Char) : List Char → Bool
  | [] => listStartsWith pre []
  | c :: t => listStartsWith pre (c :: t) || hasSubstr pre t

/-- The method `Equation._validate_equation`: the character whitelist, the `=`
count, and the forbidden operator combinations, checked in source
order on the raw input.  Returns the exception raised, if any. -/
def validate_equation (eq : String) : Option PyError :=
  if !polyValidMatch eq then
    some (.InvalidEquationError ("bad characters in equation " ++ eq))
  else if 1 < eq.toList.count '=' then
    some (.InvalidEquationError ("cannot have more than one = sign in equation " ++ eq))
  else if hasSubstr ['+', '+'] eq.toList then
    some (.InvalidEquationError ("repeated + sign in equation " ++ eq))
  else if hasSubstr ['-', '-'] eq.toList then
    some (.InvalidEquationError ("repeated - sign in equation " ++ eq))
  else if hasSubstr ['+', '-'] eq.toList || hasSubstr ['-', '+'] eq.toList then
    some (.InvalidEquationError ("+- or -+ sign combination in equation " ++ eq))
  else if hasSubstr ['^', '^'] eq.toList then
    some (.InvalidEquationError ("unknown operation ^^ in equation " ++ eq))
  else if hasSubstr ['*', '*', '*'] eq.toList then
    some (.InvalidEquationError ("unknown operation *** in equation " ++ eq))
  else none

/-- The Python string replacement of a double star by a caret:
left-to-right, non-overlapping. -/
def replaceDoubleStarCaret : List Char → List Char
  | '*' :: '*' :: t => '^' :: replaceDoubleStarCaret t
  | c :: t => c :: replaceDoubleStarCaret t
  | [] => []

/-- The method `Equation._sanitize_equation`: replace each double star
with a caret, then replace every star with the empty string, then every
space with the empty string (replacement by the empty string deletes
every occurrence of the single character). -/
def sanitize_equation (eq : String) : String :=
  String.mk (((replaceDoubleStarCaret eq.toList).filter (fun c => c ≠ '*')).filter
    (fun c => c ≠ ' '))

/-- The split `re.split(POLY_SPLIT, s)`: the delimiter class is a capturing group
of single characters, so the result alternates (possibly empty)
non-delimiter chunks with one-character delimiter tokens. -/
def polySplitAux : List Char → List Char → List (List Char)
  | [], acc => [acc.reverse]
  | c :: t, acc =>
    if isStructuralChar c then acc.reverse :: [c] :: polySplitAux t []
    else polySplitAux t (c :: acc)

/-- The split `re.split(POLY_SPLIT, s)` from the start of the string. -/
def polySplit (l : List Char) : List (List Char) := polySplitAux l []

/-- The membership test `token in [structural one-character strings]` of the
source — the whole
token equals one of the one-character structural strings. -/
def isStructuralToken (t : List Char) : Bool :=
  [['+'], ['-'], ['='], ['('], [')'], ['['], [']'], ['\x7b'], ['\x7d']].contains t

/-- The loop body of `Equation._process_equation`: empty tokens are
skipped, structural tokens pass through verbatim, and term tokens are
rendered by `process_term`; the first raised exception aborts. -/
def processTokens : List (List Char) → Except PyError String
  | [] => .ok ""
  | t :: ts =>
    if t.isEmpty then processTokens ts
    else if isStructuralToken t then
      match processTokens ts with
      | .ok r => .ok (String.mk t ++ r)
      | .error e => .error e
    else
      match process_term (String.mk t), processTokens ts with
      | .error e, _ => .error e
      | .ok _, .error e => .error e
      | .ok r, .ok rs => .ok (r ++ rs)

/-- The method `Equation._process_equation`: rebuild the equation from the token
sequence of the sanitized text. -/
def process_equation (eq : String) : Except PyError String :=
  processTokens (polySplit eq.toList)

/-- The Python `str.split(sep)` for a one-character separator. -/
def splitOnChar (c : Char) : List Char → List (List Char)
  | [] => [[]]
  | x :: t =>
    if x = c then [] :: splitOnChar c t
    else
      match splitOnChar c t with
      | p :: ps => (x :: p) :: ps
      | [] => [[x]]

/-- The `ValueError` message of a failed 2-tuple unpacking. -/
def unpackErrorMsg (n : Nat) : String :=
  if n < 2 then "not enough values to unpack (expected 2, got " ++ toString n ++ ")"
  else "too many values to unpack (expected 2)"

/-- The constructor `Equation.__init__(equation)` for a string argument: validate the
raw text, sanitize it into `self.equation`, process it, and unpack the
split on `=` into the two sides.  (With `equation=None` the source
raises `NoEquationError`; no claim concerns that path.) -/
def equationInit (equation : String) : Except PyError Equation :=
  match validate_equation equation with
  | some e => .error e
  | none =>
    let sanitized := sanitize_equation equation
    match process_equation sanitized with
    | .error e => .error e
    | .ok processed =>
      match splitOnChar '=' processed.toList with
      | [l, r] =>
        .ok { equation := sanitized
              left_hand_side := String.mk l
              right_hand_side := String.mk r }
      | parts => .error (.ValueError (unpackErrorMsg parts.length))

/-- The method `Equation.canonicalize`, with the external call
`simplify(sympify(lhs) - sympify(rhs))` abstracted as `engine`: format
the engine result as `... = 0` and map the engine syntax back (double
star becomes caret, stars are deleted). -/
def canonicalize (engine : String → String → String) (e : Equation) : String :=
  let ret := engine e.left_hand_side e.right_hand_side ++ " = 0"
  String.mk ((replaceDoubleStarCaret ret.toList).filter (fun c => c ≠ '*'))

/-- The head of `r`, when present, falsifies `p`: a greedy run stops
right there. -/
def headNot (p : Char → Bool) (r : List Char) : Prop :=
  ∀ c, r.head? = some c → p c = false

/-- The number alternatives `\d+(\.\d*)?` and `\.\d+` of the coefficient
group of `POLY_TERM`. -/
inductive NumCore : List Char → Prop
  | intOnly (ds : List Char) : ds ≠ [] → (∀ c ∈ ds, c.isDigit = true) → NumCore ds
  | intFrac (ds ds2 : List Char) : ds ≠ [] → (∀ c ∈ ds, c.isDigit = true) →
      (∀ c ∈ ds2, c.isDigit = true) → NumCore (ds ++ '.' :: ds2)
  | fracOnly (ds2 : List Char) : ds2 ≠ [] → (∀ c ∈ ds2, c.isDigit = true) →
      NumCore ('.' :: ds2)

/-- The optional scientific suffix `([eE][-+]?\d+)?`. -/
inductive SciTail : List Char → Prop
  | noSci : SciTail []
  | sci (e : Char) (ds : List Char) : (e = 'e' ∨ e = 'E') → ds ≠ [] →
      (∀ c ∈ ds, c.isDigit = true) → SciTail (e :: ds)
  | sciSigned (e s : Char) (ds : List Char) : (e = 'e' ∨ e = 'E') → (s = '+' ∨ s = '-') →
      ds ≠ [] → (∀ c ∈ ds, c.isDigit = true) → SciTail (e :: s :: ds)

/-- A complete coefficient text, exactly as capturable by group 1 of the
term patterns. -/
def NumShape (l : List Char) : Prop :=
  ∃ core scitail, NumCore core ∧ SciTail scitail ∧ l = core ++ scitail

/-- A character that cannot extend a completed coefficient match. -/
def safeAfterNum (c : Char) : Prop :=
  c.isDigit = false ∧ c ≠ '.' ∧ c ≠ 'e' ∧ c ≠ 'E'

/-- A tokenizer part is either a one-character structural token or free
of structural characters. -/
def partOk (p : List Char) : Prop :=
  (∃ c, p = [c] ∧ isStructuralChar c = true) ∨ ∀ c ∈ p, isStructuralChar c = false

example : process_term "66" = .ok "66" := by decide
example : process_term "66.66" = .ok "66.66" := by decide
example : process_term "66e10" = .ok "66e10" := by decide
example : process_term "xyz" = .ok "x*y*z" := by decide
example : process_term "66e10x^23" = .ok "66e10*x**23" := by decide
example : (process_term "23az").isOk = false := by decide
example : (process_term "23a^3").isOk = false := by decide
example : (process_term "23x^").isOk = false := by decide

/-! ## Generic helpers about greedy character runs -/

/-- Every element of `xs` satisfies `p`, so a greedy run passes through
`xs` whole. -/
theorem takeWhile_append_of_all {p : Char → Bool} {xs : List Char} (ys : List Char)
    (h : ∀ x ∈ xs, p x = true) :
    (xs ++ ys).takeWhile p = xs ++ ys.takeWhile p := by
  induction xs with
  | nil => simp
  | cons a t ih =>
    have ha : p a = true := h a (List.mem_cons_self a t)
    simp only [List.cons_append, List.takeWhile_cons_of_pos ha]
    exact congrArg _ (ih (fun x hx => h x (List.mem_cons_of_mem a hx)))

/-- Companion of `takeWhile_append_of_all` for the remainder. -/
theorem dropWhile_append_of_all {p : Char → Bool} {xs : List Char} (ys : List Char)
    (h : ∀ x ∈ xs, p x = true) :
    (xs ++ ys).dropWhile p = ys.dropWhile p := by
  induction xs with
  | nil => simp
  | cons a t ih =>
    have ha : p a = true := h a (List.mem_cons_self a t)
    simp only [List.cons_append, List.dropWhile_cons_of_pos ha]
    exact ih (fun x hx => h x (List.mem_cons_of_mem a hx))

theorem takeWhile_of_headNot {p : Char → Bool} {r : List Char} (h : headNot p r) :
    r.takeWhile p = [] := by
  cases r with
  | nil => rfl
  | cons c t => exact List.takeWhile_cons_of_neg (by simp [h c rfl])

theorem dropWhile_of_headNot {p : Char → Bool} {r : List Char} (h : headNot p r) :
    r.dropWhile p = r := by
  cases r with
  | nil => rfl
  | cons c t => exact List.dropWhile_cons_of_neg (by simp [h c rfl])

/-- A greedy run over `xs ++ r` takes exactly `xs` when all of `xs`
satisfies `p` and the head of `r` does not. -/
theorem takeWhile_boundary {p : Char → Bool} {xs r : List Char}
    (hall : ∀ x ∈ xs, p x = true) (h : headNot p r) :
    (xs ++ r).takeWhile p = xs := by
  rw [takeWhile_append_of_all r hall, takeWhile_of_headNot h, List.append_nil]

theorem dropWhile_boundary {p : Char → Bool} {xs r : List Char}
    (hall : ∀ x ∈ xs, p x = true) (h : headNot p r) :
    (xs ++ r).dropWhile p = r := by
  rw [dropWhile_append_of_all r hall, dropWhile_of_headNot h]

/-! ## The shape of a coefficient text -/

/-- The number matcher consumes exactly a `NumCore` when what follows
can neither continue a digit run nor open a fraction. -/
theorem matchNumber_boundary {core : List Char} (t : List Char) (hc : NumCore core)
    (ht : ∀ c, t.head? = some c → c.isDigit = false ∧ c ≠ '.') :
    matchNumber (core ++ t) = some (core, t) := by
  have htd : headNot Char.isDigit t := fun c h => (ht c h).1
  cases hc with
  | intOnly ds hne hds =>
    simp only [matchNumber, takeWhile_boundary hds htd, dropWhile_boundary hds htd,
      List.isEmpty_eq_true, hne, if_false]
    split
    · exact absurd rfl (ht '.' rfl).2
    · rfl
  | intFrac ds ds2 hne hds hds2 =>
    have h1 : (ds ++ '.' :: ds2) ++ t = ds ++ '.' :: (ds2 ++ t) := by simp
    have hdot : headNot Char.isDigit ('.' :: (ds2 ++ t)) := by
      intro c h; simp at h; rw [← h]; decide
    simp only [matchNumber, h1, takeWhile_boundary hds hdot, dropWhile_boundary hds hdot,
      List.isEmpty_eq_true, hne, if_false, takeWhile_boundary hds2 htd,
      dropWhile_boundary hds2 htd]
  | fracOnly ds2 hne hds2 =>
    have hdot : headNot Char.isDigit ('.' :: (ds2 ++ t)) := by
      intro c h; simp at h; rw [← h]; decide
    have h1 : ('.' :: ds2) ++ t = '.' :: (ds2 ++ t) := by simp
    simp only [matchNumber, h1, takeWhile_of_headNot hdot, dropWhile_of_headNot hdot,
      List.isEmpty_nil, if_true, takeWhile_boundary hds2 htd, dropWhile_boundary hds2 htd,
      List.isEmpty_eq_true, hne, if_false]

/-- The scientific-suffix group does not participate when the input does
not open with `e`/`E`. -/
theorem matchSci_none {r : List Char} (h : ∀ c, r.head? = some c → c ≠ 'e' ∧ c ≠ 'E') :
    matchSci r = none := by
  cases r with
  | nil => rfl
  | cons c t =>
    have := h c rfl
    simp only [matchSci]
    rw [if_neg (by tauto)]

/-- The scientific-suffix matcher consumes exactly `e :: ds` (no sign)
when the digits stop at the head of `r`. -/
theorem matchSci_unsigned {e : Char} {ds : List Char} (r : List Char)
    (he : e = 'e' ∨ e = 'E') (hne : ds ≠ []) (hds : ∀ c ∈ ds, c.isDigit = true)
    (hr : headNot Char.isDigit r) :
    matchSci (e :: (ds ++ r)) = some (e :: ds, r) := by
  cases ds with
  | nil => exact absurd rfl hne
  | cons d ds2 =>
    have hd : d.isDigit = true := hds d (List.mem_cons_self d ds2)
    have hd1 : ¬(d = '+' ∨ d = '-') := by
      rintro (rfl | rfl) <;> simp at hd
    simp only [matchSci, List.cons_append, if_pos he, if_neg hd1]
    have hall : ∀ c ∈ d :: ds2, Char.isDigit c = true := hds
    rw [show d :: (ds2 ++ r) = (d :: ds2) ++ r from rfl, takeWhile_boundary hall hr,
      dropWhile_boundary hall hr]
    simp

/-- The scientific-suffix matcher consumes exactly `e :: s :: ds` (with
sign) when the digits stop at the head of `r`. -/
theorem matchSci_signed {e s : Char} {ds : List Char} (r : List Char)
    (he : e = 'e' ∨ e = 'E') (hs : s = '+' ∨ s = '-') (hne : ds ≠ [])
    (hds : ∀ c ∈ ds, c.isDigit = true) (hr : headNot Char.isDigit r) :
    matchSci (e :: s :: (ds ++ r)) = some (e :: s :: ds, r) := by
  simp only [matchSci, if_pos he, if_pos hs, takeWhile_boundary hds hr,
    dropWhile_boundary hds hr]
  simp [hne]

/-- The whole coefficient group consumes exactly a `NumShape` when the
following character cannot extend it. -/
theorem matchCoef_boundary {a : List Char} (r : List Char) (ha : NumShape a)
    (hr : ∀ c, r.head? = some c → safeAfterNum c) :
    matchCoef (a ++ r) = (some a, r) := by
  obtain ⟨core, scitail, hcore, htail, rfl⟩ := ha
  have hrdot : ∀ c, r.head? = some c → c.isDigit = false ∧ c ≠ '.' := by
    intro c h; exact ⟨(hr c h).1, (hr c h).2.1⟩
  have hrd : headNot Char.isDigit r := fun c h => (hr c h).1
  cases htail with
  | noSci =>
    rw [List.append_nil]
    simp only [matchCoef, matchNumber_boundary r hcore hrdot]
    rw [matchSci_none (fun c h => ⟨(hr c h).2.2.1, (hr c h).2.2.2⟩)]
  | sci e ds he hne hds =>
    have he2 : Char.isDigit e = false ∧ e ≠ '.' := by rcases he with rfl | rfl <;> decide
    have h1 : (core ++ e :: ds) ++ r = core ++ (e :: (ds ++ r)) := by simp
    have h2 : ∀ c, (e :: (ds ++ r)).head? = some c → c.isDigit = false ∧ c ≠ '.' := by
      intro c h; simp at h; rw [← h]; exact he2
    simp only [matchCoef, h1, matchNumber_boundary _ hcore h2,
      matchSci_unsigned r he hne hds hrd]
  | sciSigned e s ds he hs hne hds =>
    have he2 : Char.isDigit e = false ∧ e ≠ '.' := by rcases he with rfl | rfl <;> decide
    have h1 : (core ++ e :: s :: ds) ++ r = core ++ (e :: s :: (ds ++ r)) := by simp
    have h2 : ∀ c, (e :: s :: (ds ++ r)).head? = some c → c.isDigit = false ∧ c ≠ '.' := by
      intro c h; simp at h; rw [← h]; exact he2
    simp only [matchCoef, h1, matchNumber_boundary _ hcore h2,
      matchSci_signed r he hs hne hds hrd]

/-- The number matcher fails when the input opens with neither a digit
nor a decimal point. -/
theorem matchNumber_not_number {l : List Char}
    (h : ∀ c, l.head? = some c → c.isDigit = false ∧ c ≠ '.') :
    matchNumber l = none := by
  have hd : headNot Char.isDigit l := fun c hc => (h c hc).1
  simp only [matchNumber, takeWhile_of_headNot hd, List.isEmpty_nil, if_true]
  split
  · exact absurd rfl (h '.' rfl).2
  · rfl

/-- The coefficient group does not participate when the input opens with
neither a digit nor a decimal point. -/
theorem matchCoef_not_number {l : List Char}
    (h : ∀ c, l.head? = some c → c.isDigit = false ∧ c ≠ '.') :
    matchCoef l = (none, l) := by
  simp only [matchCoef, matchNumber_not_number h]

/-! ## Decomposed views of the term match -/

theorem matchPolyTerm_coefficient (p : Char → Bool) (l : List Char) :
    (matchPolyTerm p l).coefficient = (matchCoef l).1 := rfl

theorem matchPolyTerm_vars (p : Char → Bool) (l : List Char) :
    (matchPolyTerm p l).vars = (varsSplit p (matchCoef l).2).1 := rfl

theorem matchPolyTerm_caret (p : Char → Bool) (l : List Char) :
    (matchPolyTerm p l).caret = (expSplit (varsSplit p (matchCoef l).2).2).1 := rfl

theorem matchPolyTerm_exponent (p : Char → Bool) (l : List Char) :
    (matchPolyTerm p l).exponent = (expSplit (varsSplit p (matchCoef l).2).2).2.1 := rfl

/-- The variable group over `v ++ r` captures exactly `v`. -/
theorem varsSplit_boundary {p : Char → Bool} {v : List Char} (r : List Char)
    (hv : ∀ c ∈ v, p c = true) (hr : headNot p r) :
    varsSplit p (v ++ r) = (if v.isEmpty then none else some v, r) := by
  simp only [varsSplit, takeWhile_boundary hv hr, dropWhile_boundary hv hr]

theorem varsSplit_nil (p : Char → Bool) : varsSplit p [] = (none, []) := rfl

/-- The groups `(\^)?(\d+)?` over `'^' :: k ++ r`, digits stopping at `r`. -/
theorem expSplit_caret {k : List Char} (r : List Char)
    (hk : ∀ c ∈ k, c.isDigit = true) (hr : headNot Char.isDigit r) :
    expSplit ('^' :: (k ++ r)) = (true, if k.isEmpty then none else some k, r) := by
  rw [expSplit, if_pos rfl]
  simp only [takeWhile_boundary hk hr, dropWhile_boundary hk hr]

theorem expSplit_nil : expSplit [] = (false, none, []) := rfl

/-- The groups `(\^)?(\d+)?` capture nothing when the input opens with neither a
caret nor a digit. -/
theorem expSplit_none {l : List Char}
    (h : ∀ c, l.head? = some c → c.isDigit = false ∧ c ≠ '^') :
    expSplit l = (false, none, l) := by
  have hd : headNot Char.isDigit l := fun c hc => (h c hc).1
  cases l with
  | nil => rfl
  | cons c t =>
    rw [expSplit, if_neg (h c rfl).2]
    rw [takeWhile_of_headNot hd, dropWhile_of_headNot hd]
    rfl

/-! ## Facts about the fixed alphabet -/

theorem varName_cases {c : Char} (h : VAR_NAMES.contains c = true) :
    c = 't' ∨ c = 'u' ∨ c = 'v' ∨ c = 'w' ∨ c = 'x' ∨ c = 'y' ∨ c = 'z' := by
  simpa [VAR_NAMES, List.contains] using h

theorem varName_isLower {c : Char} (h : VAR_NAMES.contains c = true) : c.isLower = true := by
  rcases varName_cases h with rfl | rfl | rfl | rfl | rfl | rfl | rfl <;> rfl

theorem varName_safeAfterNum {c : Char} (h : VAR_NAMES.contains c = true) : safeAfterNum c := by
  rcases varName_cases h with rfl | rfl | rfl | rfl | rfl | rfl | rfl <;>
    exact ⟨by decide, by decide, by decide, by decide⟩

/-- Rebuilding a string from its characters is the identity. -/
theorem mk_toList (s : String) : String.mk s.toList = s := rfl

/-- Claim C9 (confirmed): a term token that is exactly a coefficient —
no variables, no exponent marker — renders to the coefficient text
unchanged, scientific-notation suffix preserved verbatim; in particular
`process_term "66" = "66"`, `process_term "66.66" = "66.66"`, and
`process_term "66e10" = "66e10"`. -/
theorem C9_coefficient_only_unchanged :
    (∀ s : String, NumShape s.toList → process_term s = .ok s) ∧
    process_term "66" = .ok "66" ∧ process_term "66.66" = .ok "66.66" ∧
    process_term "66e10" = .ok "66e10" := by
  refine ⟨?_, by decide, by decide, by decide⟩
  intro s hs
  have hc : matchCoef s.toList = (some s.toList, []) := by
    have h := matchCoef_boundary (a := s.toList) [] hs (by intro c hh; simp at hh)
    simpa using h
  simp only [process_term, polyTermMatch, allVarsTermMatch, matchPolyTerm_vars,
    matchPolyTerm_caret, matchPolyTerm_coefficient, hc, varsSplit_nil, expSplit_nil]
  simp [mk_toList]

/-- Claim C9 witness: the general statement applied at the concrete
token `66e10` (a digit run with scientific suffix). -/
theorem C9_coefficient_only_unchanged_witness :
    NumShape ("66e10" : String).toList ∧ process_term "66e10" = .ok "66e10" := by
  have hshape : NumShape ("66e10" : String).toList :=
    ⟨['6', '6'], ['e', '1', '0'],
      NumCore.intOnly ['6', '6'] (by decide) (by decide),
      SciTail.sci 'e' ['1', '0'] (Or.inl rfl) (by decide) (by decide), by decide⟩
  exact ⟨hshape, C9_coefficient_only_unchanged.1 "66e10" hshape⟩

/-- Listing the characters of a rebuilt string is the identity. -/
theorem toList_mk (l : List Char) : (String.mk l).toList = l := rfl

/-- A coefficient text is never empty. -/
theorem NumShape.ne_nil {a : List Char} (h : NumShape a) : a ≠ [] := by
  obtain ⟨core, scitail, hcore, -, rfl⟩ := h
  cases hcore with
  | intOnly ds hne _ => intro h2; exact hne (List.append_eq_nil.mp h2).1
  | intFrac ds ds2 _ _ _ => simp
  | fracOnly ds2 _ _ => simp

/-- The variable group captures nothing when the head is not a variable
character. -/
theorem varsSplit_of_headNot {p : Char → Bool} {l : List Char} (h : headNot p l) :
    varsSplit p l = (none, l) := by
  simp only [varsSplit, takeWhile_of_headNot h, dropWhile_of_headNot h, List.isEmpty_nil,
    if_true]

/-- Filtering the alphabet for the symbols of a one-symbol run keeps
exactly that symbol (in the Boolean form `simp` normalizes the
membership test to). -/
theorem varNames_filter_single {c : Char} (h : VAR_NAMES.contains c = true) :
    VAR_NAMES.filter (fun vn => decide (vn = c)) = [c] := by
  rcases varName_cases h with rfl | rfl | rfl | rfl | rfl | rfl | rfl <;> decide

/-- Claim C3 (corrected): with an exponent marker, digits, and a
variable present, `process_term` renders coefficient-prefix (if any),
variable, and the `**` exponent suffix (`66e10x^23 ↦ 66e10*x**23`); but
a coefficient-only term with an exponent takes the early
coefficient-return of the source and the rendered exponent suffix is
dropped (`2^3 ↦ 2`, not `2**3`). -/
theorem C3_exponent_rendering :
    (∀ (a : List Char) (c : Char) (k : List Char),
      (a = [] ∨ NumShape a) → VAR_NAMES.contains c = true → k ≠ [] →
      (∀ d ∈ k, d.isDigit = true) →
      process_term (String.mk (a ++ c :: '^' :: k)) =
        .ok (String.mk ((if a.isEmpty then [] else a ++ ['*']) ++ c :: '*' :: '*' :: k))) ∧
    (∀ (a k : List Char), NumShape a → k ≠ [] → (∀ d ∈ k, d.isDigit = true) →
      process_term (String.mk (a ++ '^' :: k)) = .ok (String.mk a)) ∧
    process_term "66e10x^23" = .ok "66e10*x**23" := by
  refine ⟨?_, ?_, by decide⟩
  · intro a c k ha hc hk hkd
    have hsafe : safeAfterNum c := varName_safeAfterNum hc
    have hlow : c.isLower = true := varName_isLower hc
    have hvarsPoly :
        varsSplit (fun d => VAR_NAMES.contains d) (c :: '^' :: k) = (some [c], '^' :: k) := by
      have := varsSplit_boundary (p := fun d => VAR_NAMES.contains d) (v := [c]) ('^' :: k)
        (by intro x hx; simp at hx; subst hx; exact hc)
        (by intro d hd; simp at hd; subst hd; decide)
      simpa using this
    have hvarsLow : varsSplit Char.isLower (c :: '^' :: k) = (some [c], '^' :: k) := by
      have := varsSplit_boundary (p := Char.isLower) (v := [c]) ('^' :: k)
        (by intro x hx; simp at hx; subst hx; exact hlow)
        (by intro d hd; simp at hd; subst hd; decide)
      simpa using this
    have hexp : expSplit ('^' :: k) = (true, some k, []) := by
      have := expSplit_caret (k := k) [] hkd (by intro d hd; simp at hd)
      simpa [hk] using this
    rcases ha with rfl | hnum
    · have hcoef : matchCoef (c :: '^' :: k) = (none, c :: '^' :: k) :=
        matchCoef_not_number (by intro d hd; simp at hd; subst hd; exact ⟨hsafe.1, hsafe.2.1⟩)
      simp only [process_term, polyTermMatch, allVarsTermMatch, matchPolyTerm_vars,
        matchPolyTerm_caret, matchPolyTerm_coefficient, matchPolyTerm_exponent,
        List.nil_append, toList_mk, hcoef, hvarsPoly, hvarsLow, hexp]
      simp [varNames_filter_single hc]
    · have hcoef : matchCoef (a ++ c :: '^' :: k) = (some a, c :: '^' :: k) :=
        matchCoef_boundary _ hnum (by intro d hd; simp at hd; subst hd; exact hsafe)
      simp only [process_term, polyTermMatch, allVarsTermMatch, matchPolyTerm_vars,
        matchPolyTerm_caret, matchPolyTerm_coefficient, matchPolyTerm_exponent,
        toList_mk, hcoef, hvarsPoly, hvarsLow, hexp]
      simp [varNames_filter_single hc, hnum.ne_nil]
  · intro a k hnum hk hkd
    have hcoef : matchCoef (a ++ '^' :: k) = (some a, '^' :: k) :=
      matchCoef_boundary _ hnum
        (by intro d hd; simp at hd; subst hd; exact ⟨by decide, by decide, by decide, by decide⟩)
    have hvarsPoly : varsSplit (fun d => VAR_NAMES.contains d) ('^' :: k) = (none, '^' :: k) :=
      varsSplit_of_headNot (by intro d hd; simp at hd; subst hd; decide)
    have hvarsLow : varsSplit Char.isLower ('^' :: k) = (none, '^' :: k) :=
      varsSplit_of_headNot (by intro d hd; simp at hd; subst hd; decide)
    have hexp : expSplit ('^' :: k) = (true, some k, []) := by
      have := expSplit_caret (k := k) [] hkd (by intro d hd; simp at hd)
      simpa [hk] using this
    simp only [process_term, polyTermMatch, allVarsTermMatch, matchPolyTerm_vars,
      matchPolyTerm_caret, matchPolyTerm_coefficient, matchPolyTerm_exponent,
      toList_mk, hcoef, hvarsPoly, hvarsLow, hexp]
    simp

/-- Claim C3 witness: both general parts applied at concrete tokens —
`3x^2` renders the exponent suffix, `2^3` drops it. -/
theorem C3_exponent_rendering_witness :
    process_term "3x^2" = .ok "3*x**2" ∧ process_term "2^3" = .ok "2" := by
  constructor
  · have h := C3_exponent_rendering.1 ['3'] 'x' ['2']
      (Or.inr ⟨['3'], [], NumCore.intOnly ['3'] (by decide) (by decide), SciTail.noSci,
        by decide⟩)
      (by decide) (by decide) (by decide)
    simpa using h
  · have h := C3_exponent_rendering.2.1 ['2'] ['3']
      ⟨['2'], [], NumCore.intOnly ['2'] (by decide) (by decide), SciTail.noSci, by decide⟩
      (by decide) (by decide)
    simpa using h

/-- Claim C3 counterexample: `process_term "2^3"` returns `"2"`; the
exponent suffix `**3` the claim requires is not carried. -/
theorem C3_counterexample_coefficient_exponent_dropped :
    process_term "2^3" = .ok "2" ∧ ("2" : String) ≠ "2**3" :=
  ⟨by decide, by decide⟩

/-- The function `List.contains` as a decidable membership test. -/
theorem contains_eq_mem (l : List Char) (x : Char) : l.contains x = decide (x ∈ l) :=
  List.elem_eq_mem x l

/-- Claim C4 (confirmed): a term token that is a run of alphabet symbols
with more than one distinct symbol renders as the present symbols joined
by `*` in the fixed order of `VAR_NAMES`, independently of input order
(`yx ↦ x*y`, `xyz ↦ x*y*z`). -/
theorem C4_multivariable_alphabet_order :
    (∀ v : List Char, v ≠ [] → (∀ c ∈ v, VAR_NAMES.contains c = true) →
      1 < (VAR_NAMES.filter (fun vn => v.contains vn)).length →
      process_term (String.mk v) =
        .ok (String.mk (joinStar (VAR_NAMES.filter (fun vn => v.contains vn))))) ∧
    (∀ v w : List Char, v ≠ [] → w ≠ [] → (∀ c ∈ v, VAR_NAMES.contains c = true) →
      (∀ c ∈ w, VAR_NAMES.contains c = true) → (∀ c, c ∈ v ↔ c ∈ w) →
      1 < (VAR_NAMES.filter (fun vn => v.contains vn)).length →
      process_term (String.mk v) = process_term (String.mk w)) ∧
    process_term "yx" = .ok "x*y" ∧ process_term "xyz" = .ok "x*y*z" := by
  have main : ∀ v : List Char, v ≠ [] → (∀ c ∈ v, VAR_NAMES.contains c = true) →
      1 < (VAR_NAMES.filter (fun vn => v.contains vn)).length →
      process_term (String.mk v) =
        .ok (String.mk (joinStar (VAR_NAMES.filter (fun vn => v.contains vn)))) := by
    intro v hne hv hcnt
    obtain ⟨c0, v', rfl⟩ := List.exists_cons_of_ne_nil hne
    have hc0 : VAR_NAMES.contains c0 = true := hv c0 (List.mem_cons_self c0 v')
    have hsafe : safeAfterNum c0 := varName_safeAfterNum hc0
    have hcoef : matchCoef (c0 :: v') = (none, c0 :: v') :=
      matchCoef_not_number (by intro d hd; simp at hd; subst hd; exact ⟨hsafe.1, hsafe.2.1⟩)
    have hvarsPoly :
        varsSplit (fun d => VAR_NAMES.contains d) (c0 :: v') = (some (c0 :: v'), []) := by
      have := varsSplit_boundary (p := fun d => VAR_NAMES.contains d) (v := c0 :: v') []
        (by intro x hx; exact hv x hx) (by intro d hd; simp at hd)
      simpa using this
    have hvarsLow : varsSplit Char.isLower (c0 :: v') = (some (c0 :: v'), []) := by
      have := varsSplit_boundary (p := Char.isLower) (v := c0 :: v') []
        (by intro x hx; exact varName_isLower (hv x hx)) (by intro d hd; simp at hd)
      simpa using this
    simp only [process_term, polyTermMatch, allVarsTermMatch, matchPolyTerm_vars,
      matchPolyTerm_caret, matchPolyTerm_coefficient, matchPolyTerm_exponent,
      toList_mk, hcoef, hvarsPoly, hvarsLow, expSplit_nil]
    simp
    simp at hcnt
    rw [if_neg (by omega), if_pos hcnt]
  refine ⟨main, ?_, by decide, by decide⟩
  intro v w hnev hnew hv hw hiff hcnt
  have hfil : VAR_NAMES.filter (fun vn => v.contains vn)
      = VAR_NAMES.filter (fun vn => w.contains vn) := by
    apply List.filter_congr
    intro x _
    rw [contains_eq_mem v x, contains_eq_mem w x]
    simp [hiff x]
  rw [main v hnev hv hcnt, main w hnew hw (by rw [← hfil]; exact hcnt), hfil]

/-- Claim C4 witness: the general rendering statement applied at the
concrete token `zx`, whose symbols are reordered to `x*z`. -/
theorem C4_multivariable_alphabet_order_witness : process_term "zx" = .ok "x*z" := by
  have h := C4_multivariable_alphabet_order.1 ['z', 'x'] (by decide) (by decide) (by decide)
  simpa using h

/-- The variable group does capture when the head character is accepted. -/
theorem varsSplit_some_of_head {p : Char → Bool} {c : Char} (r : List Char) (h : p c = true) :
    (varsSplit p (c :: r)).1 = some (c :: r.takeWhile p) := by
  simp [varsSplit, List.takeWhile_cons_of_pos h]

/-- The join of `VAR_NAMES` with a comma-space separator, as in the
error message. -/
theorem varNames_joined :
    String.intercalate ", " (VAR_NAMES.map Char.toString) = "t, u, v, w, x, y, z" := by decide

/-- Claim C1 (corrected): `process_term` raises
`UnexpectedVariableNamesError` — naming the token and listing the
alphabet — exactly in the situation where the permissive variable group
captures while the restricted one captures nothing, i.e. when the first
character after the coefficient is a lowercase letter outside
`VAR_NAMES`.  A token such as `xa`, where a known letter precedes the
unknown one, is not rejected (see the counterexample). -/
theorem C1_unknown_variable_detection (tok : String) (g : Option (List Char)) (c : Char)
    (r : List Char) (hc : matchCoef tok.toList = (g, c :: r)) (hlow : c.isLower = true)
    (hout : VAR_NAMES.contains c = false) :
    process_term tok = .error (.UnexpectedVariableNamesError
      ("unexpected variable in term " ++ tok
        ++ ". accepted variable names are: t, u, v, w, x, y, z")) := by
  have h1 : varsSplit (fun d => VAR_NAMES.contains d) (c :: r) = (none, c :: r) :=
    varsSplit_of_headNot (by intro d hd; simp at hd; subst hd; exact hout)
  have h2 : (varsSplit Char.isLower (c :: r)).1 = some (c :: r.takeWhile Char.isLower) :=
    varsSplit_some_of_head r hlow
  simp only [process_term, polyTermMatch, allVarsTermMatch, matchPolyTerm_vars, hc, h1, h2]
  simp only [varNames_joined, Option.isSome_some, Option.isNone_none, Bool.and_self, if_true]
  rw [String.append_assoc, show (". accepted variable names are: "
    ++ "t, u, v, w, x, y, z" : String) = ". accepted variable names are: t, u, v, w, x, y, z"
    from by decide]

/-- Claim C1 witness: the detection applied at the token `23az` (the
repository test input), whose variable segment starts with the
unknown letter `a`. -/
theorem C1_unknown_variable_detection_witness :
    process_term "23az" = .error (.UnexpectedVariableNamesError
      "unexpected variable in term 23az. accepted variable names are: t, u, v, w, x, y, z") := by
  have h := C1_unknown_variable_detection "23az" (some ['2', '3']) 'a' ['z']
    (by decide) (by decide) (by decide)
  simpa using h

/-- Claim C1 counterexample: in the mixed token `xa` the restricted
parse still captures `x`, so no error is raised — `process_term`
returns `"x"`, silently discarding the unknown letter, where the claim
requires an `UnexpectedVariableNamesError`. -/
theorem C1_counterexample_mixed_token_not_rejected : process_term "xa" = .ok "x" := by decide

/-- When a greedy run takes nothing, it also drops nothing. -/
theorem dropWhile_of_takeWhile_nil {p : Char → Bool} {l : List Char}
    (h : l.takeWhile p = []) : l.dropWhile p = l := by
  cases l with
  | nil => rfl
  | cons c t =>
    by_cases hc : p c = true
    · rw [List.takeWhile_cons_of_pos hc] at h
      exact absurd h (by simp)
    · exact List.dropWhile_cons_of_neg hc

/-- An empty variable group means the greedy run took nothing. -/
theorem varsSplit_none {p : Char → Bool} {l : List Char}
    (h : (varsSplit p l).1 = none) : l.takeWhile p = [] := by
  by_cases he : (l.takeWhile p).isEmpty = true
  · exact List.isEmpty_eq_true.mp he
  · exfalso
    simp only [varsSplit] at h
    rw [if_neg he] at h
    exact Option.noConfusion h

/-- The caret group participates only when the input at that point
opens with `^`. -/
theorem expSplit_caret_inv {l : List Char} (h : (expSplit l).1 = true) :
    ∃ t, l = '^' :: t := by
  cases l with
  | nil => exact absurd h (by simp [expSplit])
  | cons c t =>
    by_cases hc : c = '^'
    · exact ⟨t, by rw [hc]⟩
    · rw [expSplit, if_neg hc] at h
      exact absurd h (by simp)

/-- If the restricted match sees a caret where its variable group gave
nothing, then the character there is `^`, so the permissive variable
group gives nothing either: an `InvalidTermInEquationError` can never be
pre-empted by the unknown-variable check. -/
theorem caret_imp_allVars_none (r1 : List Char)
    (hcar : (expSplit (varsSplit (fun d => VAR_NAMES.contains d) r1).2).1 = true)
    (hv : (varsSplit (fun d => VAR_NAMES.contains d) r1).1 = none) :
    (varsSplit Char.isLower r1).1 = none := by
  have htw : r1.takeWhile (fun d => VAR_NAMES.contains d) = [] := varsSplit_none hv
  have hdw : (varsSplit (fun d => VAR_NAMES.contains d) r1).2 = r1 := by
    simp only [varsSplit]
    exact dropWhile_of_takeWhile_nil htw
  rw [hdw] at hcar
  obtain ⟨t, rfl⟩ := expSplit_caret_inv hcar
  rw [varsSplit_of_headNot (by intro d hd; simp at hd; subst hd; decide)]

/-- Claim C8 (confirmed): whenever the term match has a participating
exponent marker (`^`) with no digits following it, `process_term` raises
`InvalidTermInEquationError`, whose message contains "no exponent" (the
source interpolates the `re.Match` object itself). -/
theorem C8_caret_without_digits (tok : String)
    (h1 : (polyTermMatch tok.toList).caret = true)
    (h2 : (polyTermMatch tok.toList).exponent = none) :
    process_term tok = .error (.InvalidTermInEquationError
      ("exponentiation with no exponent in term "
        ++ matchRepr (polyTermMatch tok.toList).matched)) := by
  cases hv : (polyTermMatch tok.toList).vars with
  | some v => simp only [process_term, hv, h1, h2]; simp
  | none =>
    have hall : (allVarsTermMatch tok.toList).vars = none :=
      caret_imp_allVars_none (matchCoef tok.toList).2 h1 hv
    simp only [process_term, hv, hall, h1, h2]
    simp

/-- Claim C8 witness: the statement applied at the repository test
token `23x^`. -/
theorem C8_caret_without_digits_witness :
    process_term "23x^" = .error (.InvalidTermInEquationError
      "exponentiation with no exponent in term <re.Match object; span=(0, 4), match=\x2723x^\x27>") := by
  have h := C8_caret_without_digits "23x^" (by decide) (by decide)
  rw [h]
  decide

/-- What the number matcher captures, followed by what it leaves, is the
input. -/
theorem matchNumber_append {l n r : List Char} (h : matchNumber l = some (n, r)) :
    n ++ r = l := by
  unfold matchNumber at h
  by_cases he : (l.takeWhile Char.isDigit).isEmpty = true
  · rw [if_pos he] at h
    split at h
    · rename_i t
      by_cases he2 : (t.takeWhile Char.isDigit).isEmpty = true
      · rw [if_pos he2] at h
        exact Option.noConfusion h
      · rw [if_neg he2] at h
        simp only [Option.some.injEq, Prod.mk.injEq] at h
        obtain ⟨h1, h2⟩ := h
        subst h1
        subst h2
        simp [List.takeWhile_append_dropWhile]
    · exact Option.noConfusion h
  · rw [if_neg he] at h
    split at h
    · rename_i t heq
      simp only [Option.some.injEq, Prod.mk.injEq] at h
      obtain ⟨h1, h2⟩ := h
      subst h1
      subst h2
      calc (l.takeWhile Char.isDigit ++ '.' :: t.takeWhile Char.isDigit)
            ++ t.dropWhile Char.isDigit
          = l.takeWhile Char.isDigit ++ '.'
            :: (t.takeWhile Char.isDigit ++ t.dropWhile Char.isDigit) := by simp
        _ = l.takeWhile Char.isDigit ++ '.' :: t := by
            rw [List.takeWhile_append_dropWhile]
        _ = l.takeWhile Char.isDigit ++ l.dropWhile Char.isDigit := by rw [heq]
        _ = l := List.takeWhile_append_dropWhile _ _
    · simp only [Option.some.injEq, Prod.mk.injEq] at h
      obtain ⟨h1, h2⟩ := h
      subst h1
      subst h2
      exact List.takeWhile_append_dropWhile _ _

/-- What the scientific-suffix matcher captures, followed by what it
leaves, is the input. -/
theorem matchSci_append {l n r : List Char} (h : matchSci l = some (n, r)) :
    n ++ r = l := by
  unfold matchSci at h
  split at h
  · exact Option.noConfusion h
  · rename_i e t
    split at h
    · split at h
      · exact Option.noConfusion h
      · rename_i s t2
        split at h
        · by_cases he2 : (t2.takeWhile Char.isDigit).isEmpty = true
          · rw [if_pos he2] at h
            exact Option.noConfusion h
          · rw [if_neg he2] at h
            simp only [Option.some.injEq, Prod.mk.injEq] at h
            obtain ⟨h1, h2⟩ := h
            subst h1
            subst h2
            simp [List.takeWhile_append_dropWhile]
        · by_cases he2 : ((s :: t2).takeWhile Char.isDigit).isEmpty = true
          · rw [if_pos he2] at h
            exact Option.noConfusion h
          · rw [if_neg he2] at h
            simp only [Option.some.injEq, Prod.mk.injEq] at h
            obtain ⟨h1, h2⟩ := h
            subst h1
            subst h2
            simp [List.takeWhile_append_dropWhile]
    · exact Option.noConfusion h

/-- What the coefficient group captures, followed by what it leaves, is
the input. -/
theorem matchCoef_append (l : List Char) :
    (matchCoef l).1.getD [] ++ (matchCoef l).2 = l := by
  unfold matchCoef
  split
  · simp
  · rename_i num r heq
    split
    · simpa using matchNumber_append heq
    · rename_i sci r2 heq2
      simp only [Option.getD_some]
      rw [List.append_assoc, matchSci_append heq2, matchNumber_append heq]

/-- What the variable group captures, followed by what it leaves, is the
input. -/
theorem varsSplit_append (p : Char → Bool) (l : List Char) :
    (varsSplit p l).1.getD [] ++ (varsSplit p l).2 = l := by
  simp only [varsSplit]
  by_cases he : (l.takeWhile p).isEmpty = true
  · rw [if_pos he]
    simpa using dropWhile_of_takeWhile_nil (List.isEmpty_eq_true.mp he)
  · rw [if_neg he]
    exact List.takeWhile_append_dropWhile _ _

/-- What the caret and exponent groups capture, followed by the
unmatched tail, is the input at that point. -/
theorem expSplit_append (l : List Char) :
    (if (expSplit l).1 then ['^'] else []) ++ (expSplit l).2.1.getD [] ++ (expSplit l).2.2
      = l := by
  cases l with
  | nil => rfl
  | cons c t =>
    by_cases hc : c = '^'
    · subst hc
      rw [expSplit, if_pos rfl]
      by_cases he : (t.takeWhile Char.isDigit).isEmpty = true
      · have := dropWhile_of_takeWhile_nil (List.isEmpty_eq_true.mp he)
        simp [he, this]
      · simp [he, List.takeWhile_append_dropWhile]
    · rw [expSplit, if_neg hc]
      by_cases he : ((c :: t).takeWhile Char.isDigit).isEmpty = true
      · have := dropWhile_of_takeWhile_nil (List.isEmpty_eq_true.mp he)
        simp [he, this]
      · simp [he, List.takeWhile_append_dropWhile]

/-- The term pattern matches a prefix of the token: the matched text
followed by the silently unmatched tail reassembles the token. -/
theorem matchPolyTerm_matched_append_rest (p : Char → Bool) (l : List Char) :
    (matchPolyTerm p l).matched ++ (matchPolyTerm p l).rest = l := by
  show ((matchCoef l).1.getD [] ++ (varsSplit p (matchCoef l).2).1.getD []
      ++ (if (expSplit (varsSplit p (matchCoef l).2).2).1 then ['^'] else [])
      ++ (expSplit (varsSplit p (matchCoef l).2).2).2.1.getD [])
    ++ (expSplit (varsSplit p (matchCoef l).2).2).2.2 = l
  have h3 := expSplit_append (varsSplit p (matchCoef l).2).2
  have h2 := varsSplit_append p (matchCoef l).2
  have h1 := matchCoef_append l
  calc _ = (matchCoef l).1.getD [] ++ ((varsSplit p (matchCoef l).2).1.getD []
        ++ ((if (expSplit (varsSplit p (matchCoef l).2).2).1 then ['^'] else [])
          ++ (expSplit (varsSplit p (matchCoef l).2).2).2.1.getD []
          ++ (expSplit (varsSplit p (matchCoef l).2).2).2.2)) := by simp
    _ = l := by rw [h3, h2, h1]

/-- Claim C10 (confirmed): the term pattern is matched with `re.match`
— anchored at the start of the token, not at its end — so every token
splits into the matched prefix and an unmatched tail that `process_term`
silently discards: `process_term "x2" = "x"` (the `2` is captured by the
markerless exponent group and ignored) and
`process_term "2x^3y" = "2*x**3"` (the `y` is never consumed). -/
theorem C10_prefix_match_discards_tail :
    process_term "x2" = .ok "x" ∧ process_term "2x^3y" = .ok "2*x**3" ∧
    (∀ tok : String,
      (polyTermMatch tok.toList).matched ++ (polyTermMatch tok.toList).rest = tok.toList) := by
  refine ⟨by decide, by decide, ?_⟩
  intro tok
  exact matchPolyTerm_matched_append_rest _ tok.toList

/-- Claim C10 witness: the prefix decomposition evaluated at the token
`2x^3y` — the match consumes `2x^3` and leaves `y`. -/
theorem C10_prefix_match_discards_tail_witness :
    ("2x^3" ++ "y" : String).toList = ("2x^3y" : String).toList ∧
    (polyTermMatch ("2x^3y" : String).toList).matched
      ++ (polyTermMatch ("2x^3y" : String).toList).rest = ("2x^3y" : String).toList := by
  exact ⟨by decide, C10_prefix_match_discards_tail.2.2 "2x^3y"⟩

/-- Claim C2 (code_bug): with more than one `=` the constructor raises
`InvalidEquationError` as claimed; but with zero `=` it reaches the
two-target unpacking of the one-part split, which raises the Python
built-in `ValueError`, not `InvalidEquationError` — the defensive
re-check the spec describes does not exist in the source. -/
theorem C2_equals_sign_count :
    equationInit "x" = .error (.ValueError "not enough values to unpack (expected 2, got 1)") ∧
    equationInit "x=y=1" = .error (.InvalidEquationError
      "cannot have more than one = sign in equation x=y=1") :=
  ⟨by decide, by decide⟩

/-- Claim C5 (confirmed): the explicit-multiplication/double-star
spelling and the implicit/caret spelling sanitize to the same string,
construct the same `Equation`, and therefore canonicalize identically
for every algebra engine. -/
theorem C5_spelling_equivalence :
    sanitize_equation "x**2 + 3.5*x*y + y = y**2 - x*y + y"
      = sanitize_equation "x^2 + 3.5xy + y = y^2 - xy + y" ∧
    equationInit "x**2 + 3.5*x*y + y = y**2 - x*y + y"
      = equationInit "x^2 + 3.5xy + y = y^2 - xy + y" ∧
    equationInit "x^2 + 3.5xy + y = y^2 - xy + y"
      = .ok { equation := "x^2+3.5xy+y=y^2-xy+y", left_hand_side := "x**2+3.5*x*y+y",
              right_hand_side := "y**2-x*y+y" } ∧
    (∀ engine : String → String → String,
      (equationInit "x**2 + 3.5*x*y + y = y**2 - x*y + y").map (canonicalize engine)
        = (equationInit "x^2 + 3.5xy + y = y^2 - xy + y").map (canonicalize engine)) := by
  have h2 : equationInit "x**2 + 3.5*x*y + y = y**2 - x*y + y"
      = equationInit "x^2 + 3.5xy + y = y^2 - xy + y" := by decide
  exact ⟨by decide, h2, by decide, fun engine => by rw [h2]⟩

/-- Claim C5 witness: the engine-independent equality instantiated at a
concrete engine. -/
theorem C5_spelling_equivalence_witness :
    (equationInit "x**2 + 3.5*x*y + y = y**2 - x*y + y").map
        (canonicalize (fun l r => l ++ " - (" ++ r ++ ")"))
      = (equationInit "x^2 + 3.5xy + y = y^2 - xy + y").map
        (canonicalize (fun l r => l ++ " - (" ++ r ++ ")")) :=
  C5_spelling_equivalence.2.2.2 (fun l r => l ++ " - (" ++ r ++ ")")

/-- The split parts, joined back together, reassemble the input (with
the pending chunk `acc` in front). -/
theorem polySplitAux_join (l : List Char) : ∀ acc : List Char,
    (polySplitAux l acc).flatten = acc.reverse ++ l := by
  induction l with
  | nil => intro acc; simp [polySplitAux]
  | cons c t ih =>
    intro acc
    by_cases hc : isStructuralChar c = true
    · simp [polySplitAux, hc, ih []]
    · simp [polySplitAux, hc, ih (c :: acc)]

/-- Every part the splitter produces is a structural singleton or a
chunk without structural characters. -/
theorem polySplitAux_parts (l : List Char) : ∀ acc : List Char,
    (∀ c ∈ acc, isStructuralChar c = false) →
    ∀ p ∈ polySplitAux l acc, partOk p := by
  induction l with
  | nil =>
    intro acc hacc p hp
    simp only [polySplitAux, List.mem_singleton] at hp
    subst hp
    exact Or.inr (fun c hc => hacc c (List.mem_reverse.mp hc))
  | cons c t ih =>
    intro acc hacc p hp
    by_cases hc : isStructuralChar c = true
    · simp only [polySplitAux, hc, if_true, List.mem_cons] at hp
      rcases hp with rfl | rfl | hp
      · exact Or.inr (fun d hd => hacc d (List.mem_reverse.mp hd))
      · exact Or.inl ⟨c, rfl, hc⟩
      · exact ih [] (by simp) p hp
    · refine ih (c :: acc) ?_ p (by simpa [polySplitAux, hc] using hp)
      intro d hd
      rcases List.mem_cons.mp hd with rfl | hd2
      · simpa using hc
      · exact hacc d hd2

/-- Characters of a starred join come from the joined list or are the
multiplication operator. -/
theorem mem_joinStar {c : Char} : ∀ {l : List Char}, c ∈ joinStar l → c ∈ l ∨ c = '*'
  | [], h => absurd h (by simp [joinStar])
  | [d], h => by
    simp only [joinStar, List.mem_singleton] at h
    exact Or.inl (by simp [h])
  | d :: e :: t, h => by
    simp only [joinStar, List.mem_cons] at h
    rcases h with rfl | rfl | h
    · exact Or.inl (List.mem_cons_self _ _)
    · exact Or.inr rfl
    · rcases mem_joinStar h with h2 | h2
      · exact Or.inl (List.mem_cons_of_mem _ h2)
      · exact Or.inr h2

/-- Every character the match consumed is a character of the token. -/
theorem mem_of_mem_matched {p : Char → Bool} {l : List Char} {c : Char}
    (h : c ∈ (matchPolyTerm p l).matched) : c ∈ l := by
  rw [← matchPolyTerm_matched_append_rest p l]
  exact List.mem_append_left _ h

theorem matchPolyTerm_matched (p : Char → Bool) (l : List Char) :
    (matchPolyTerm p l).matched = (matchCoef l).1.getD []
      ++ (varsSplit p (matchCoef l).2).1.getD []
      ++ (if (expSplit (varsSplit p (matchCoef l).2).2).1 then ['^'] else [])
      ++ (expSplit (varsSplit p (matchCoef l).2).2).2.1.getD [] := rfl

/-- Characters of a successful `process_term` rendering come from the
token or are the multiplication operator. -/
theorem process_term_chars {t : List Char} {out : String}
    (h : process_term (String.mk t) = .ok out) :
    ∀ c ∈ out.toList, c ∈ t ∨ c = '*' := by
  have hcoefmem : ∀ c ∈ ((matchCoef t).1.getD []), c ∈ t := by
    intro c hc
    exact mem_of_mem_matched (p := fun d => VAR_NAMES.contains d)
      (by rw [matchPolyTerm_matched]
          exact List.mem_append_left _ (List.mem_append_left _ (List.mem_append_left _ hc)))
  have hvarsmem : ∀ c ∈ ((varsSplit (fun d => VAR_NAMES.contains d)
      (matchCoef t).2).1.getD []), c ∈ t := by
    intro c hc
    exact mem_of_mem_matched (p := fun d => VAR_NAMES.contains d)
      (by rw [matchPolyTerm_matched]
          exact List.mem_append_left _ (List.mem_append_left _ (List.mem_append_right _ hc)))
  have hexpmem : ∀ c ∈ ((expSplit (varsSplit (fun d => VAR_NAMES.contains d)
      (matchCoef t).2).2).2.1.getD []), c ∈ t := by
    intro c hc
    exact mem_of_mem_matched (p := fun d => VAR_NAMES.contains d)
      (by rw [matchPolyTerm_matched]
          exact List.mem_append_right _ hc)
  simp only [process_term, polyTermMatch, allVarsTermMatch, matchPolyTerm_vars,
    matchPolyTerm_caret, matchPolyTerm_coefficient, matchPolyTerm_exponent, toList_mk] at h
  split at h
  · exact Except.noConfusion h
  · split at h
    · exact Except.noConfusion h
    · split at h
      · -- coefficient-only early return
        injection h with h1
        subst h1
        intro c hc
        exact Or.inl (hcoefmem c hc)
      · injection h with h1
        subst h1
        intro c hc
        rw [toList_mk] at hc
        rcases List.mem_append.mp hc with hc1 | hc2
        · rcases List.mem_append.mp hc1 with hc3 | hc4
          · -- the coefficient prefix (with its `*`)
            split at hc3
            · rcases List.mem_append.mp hc3 with hc5 | hc6
              · exact Or.inl (hcoefmem c hc5)
              · exact Or.inr (by simpa using hc6)
            · exact absurd hc3 (by simp)
          · -- the variable product
            split at hc4
            · split at hc4
              · exact Or.inl (hvarsmem c (by simpa using hc4))
              · split at hc4
                · rcases mem_joinStar hc4 with hc5 | hc5
                  · have hc6 := (List.mem_filter.mp hc5).2
                    have : c ∈ (varsSplit (fun d => VAR_NAMES.contains d)
                        (matchCoef t).2).1.getD [] := by
                      rw [contains_eq_mem] at hc6
                      simpa using hc6
                    exact Or.inl (hvarsmem c this)
                  · exact Or.inr hc5
                · exact absurd hc4 (by simp)
            · exact absurd hc4 (by simp)
        · -- the exponent suffix
          split at hc2
          · rcases List.mem_cons.mp hc2 with rfl | hc3
            · exact Or.inr rfl
            · rcases List.mem_cons.mp hc3 with rfl | hc4
              · exact Or.inr rfl
              · exact Or.inl (hexpmem c hc4)
          · exact absurd hc2 (by simp)

/-- The characters of a concatenation are the concatenated characters. -/
theorem toList_append (a b : String) : (a ++ b).toList = a.toList ++ b.toList := rfl

/-- The nine structural characters, by cases. -/
theorem structuralChar_cases {c : Char} (h : isStructuralChar c = true) :
    c = '+' ∨ c = '-' ∨ c = '(' ∨ c = ')' ∨ c = '[' ∨ c = ']' ∨ c = '\x7b' ∨ c = '\x7d'
      ∨ c = '=' := by
  simpa [isStructuralChar, STRUCTURAL, List.contains] using h

/-- A structural singleton part is recognized by the verbatim check of
`_process_equation`. -/
theorem isStructuralToken_singleton {c : Char} (h : isStructuralChar c = true) :
    isStructuralToken [c] = true := by
  rcases structuralChar_cases h with rfl | rfl | rfl | rfl | rfl | rfl | rfl | rfl | rfl <;>
    decide

/-- The multiplication operator is not structural. -/
theorem star_not_structural : isStructuralChar '*' = false := by decide

/-- The token loop preserves the subsequence of structural characters of
well-shaped parts. -/
theorem processTokens_filter : ∀ parts : List (List Char),
    (∀ p ∈ parts, partOk p) → ∀ out : String, processTokens parts = .ok out →
    out.toList.filter isStructuralChar = parts.flatten.filter isStructuralChar := by
  intro parts
  induction parts with
  | nil =>
    intro _ out h
    injection h with h1
    subst h1
    rfl
  | cons t ts ih =>
    intro hok out h
    have hokts : ∀ p ∈ ts, partOk p := fun p hp => hok p (List.mem_cons_of_mem t hp)
    by_cases hemp : t.isEmpty = true
    · rw [processTokens, if_pos hemp] at h
      rw [List.isEmpty_eq_true.mp hemp]
      simpa using ih hokts out h
    · by_cases hstr : isStructuralToken t = true
      · cases hrec : processTokens ts with
        | error e =>
          rw [processTokens, if_neg hemp, if_pos hstr, hrec] at h
          exact Except.noConfusion h
        | ok r =>
          rw [processTokens, if_neg hemp, if_pos hstr, hrec] at h
          injection h with h1
          subst h1
          simp only [toList_append, toList_mk, List.flatten_cons, List.filter_append]
          rw [ih hokts r hrec]
      · have hterm : ∀ c ∈ t, isStructuralChar c = false := by
          rcases hok t (List.mem_cons_self t ts) with ⟨c, rfl, hc⟩ | hfree
          · exact absurd (isStructuralToken_singleton hc) (by simpa using hstr)
          · exact hfree
        cases hpt : process_term (String.mk t) with
        | error e =>
          rw [processTokens, if_neg hemp, if_neg hstr, hpt] at h
          exact Except.noConfusion h
        | ok r =>
          cases hrec : processTokens ts with
          | error e =>
            rw [processTokens, if_neg hemp, if_neg hstr, hpt, hrec] at h
            exact Except.noConfusion h
          | ok rs =>
            rw [processTokens, if_neg hemp, if_neg hstr, hpt, hrec] at h
            injection h with h1
            subst h1
            have hrfree : r.toList.filter isStructuralChar = [] := by
              rw [List.filter_eq_nil_iff]
              intro c hc
              rcases process_term_chars hpt c hc with hmem | rfl
              · simp [hterm c hmem]
              · simp [star_not_structural]
            have htfree : t.filter isStructuralChar = [] := by
              rw [List.filter_eq_nil_iff]
              intro c hc
              simp [hterm c hc]
            simp only [toList_append, List.flatten_cons, List.filter_append, hrfree, htfree,
              List.nil_append]
            exact ih hokts rs hrec

/-- The method `_process_equation` preserves the subsequence of structural
characters: structural tokens pass through verbatim, dropped empty
tokens contribute nothing, and term renderings contain no structural
characters. -/
theorem process_equation_filter {s out : String} (h : process_equation s = .ok out) :
    out.toList.filter isStructuralChar = s.toList.filter isStructuralChar := by
  unfold process_equation at h
  have hjoin : (polySplit s.toList).flatten = s.toList := by
    simpa using polySplitAux_join s.toList []
  rw [processTokens_filter (polySplit s.toList)
    (polySplitAux_parts s.toList [] (by simp)) out h, hjoin]

/-- Claim C6 (confirmed): for every input on which `_process_equation`
succeeds, the subsequence of structural characters
(`+ - ( ) [ ] { } =`) of the output equals, in order, that of the
input. -/
theorem C6_structural_subsequence_preserved (s out : String)
    (h : process_equation s = .ok out) :
    out.toList.filter isStructuralChar = s.toList.filter isStructuralChar :=
  process_equation_filter h

/-- Claim C6 witness: the preservation applied to the concrete sanitized
equation `x=1+(y)`. -/
theorem C6_structural_subsequence_preserved_witness :
    process_equation "x=1+(y)" = .ok "x=1+(y)" ∧
    ("x=1+(y)" : String).toList.filter isStructuralChar
      = ("x=1+(y)" : String).toList.filter isStructuralChar := by
  have hp : process_equation "x=1+(y)" = .ok "x=1+(y)" := by decide
  exact ⟨hp, C6_structural_subsequence_preserved "x=1+(y)" "x=1+(y)" hp⟩

/-- The Python `split` never returns an empty list. -/
theorem splitOnChar_ne_nil (c : Char) (l : List Char) : splitOnChar c l ≠ [] := by
  cases l with
  | nil => simp [splitOnChar]
  | cons x t =>
    by_cases hx : x = c
    · simp [splitOnChar, hx]
    · rw [splitOnChar, if_neg hx]
      split
      · simp
      · simp

/-- A one-part split means the separator does not occur. -/
theorem splitOnChar_single {c : Char} : ∀ {l b : List Char},
    splitOnChar c l = [b] → l = b ∧ c ∉ b := by
  intro l
  induction l with
  | nil =>
    intro b h
    simp only [splitOnChar, List.cons.injEq, and_true] at h
    subst h
    simp
  | cons x t ih =>
    intro b h
    by_cases hx : x = c
    · rw [splitOnChar, if_pos hx] at h
      simp only [List.cons.injEq] at h
      exact absurd h.2 (splitOnChar_ne_nil c t)
    · rw [splitOnChar, if_neg hx] at h
      split at h
      · rename_i p ps hrec
        simp only [List.cons.injEq] at h
        obtain ⟨rfl, rfl⟩ := h
        obtain ⟨rfl, hnp⟩ := ih hrec
        exact ⟨rfl, by
          simp only [List.mem_cons, not_or]
          exact ⟨fun he => hx he.symm, hnp⟩⟩
      · rename_i hrec
        exact absurd hrec (splitOnChar_ne_nil c t)

/-- A two-part split decomposes the input around the sole separator. -/
theorem splitOnChar_two {c : Char} : ∀ {l a b : List Char},
    splitOnChar c l = [a, b] → l = a ++ c :: b ∧ c ∉ a ∧ c ∉ b := by
  intro l
  induction l with
  | nil =>
    intro a b h
    simp only [splitOnChar, List.cons.injEq] at h
    exact absurd h.2 (by simp)
  | cons x t ih =>
    intro a b h
    by_cases hx : x = c
    · subst hx
      rw [splitOnChar, if_pos rfl] at h
      simp only [List.cons.injEq] at h
      obtain ⟨rfl, h2⟩ := h
      obtain ⟨rfl, hnb⟩ := splitOnChar_single h2
      exact ⟨rfl, by simp, hnb⟩
    · rw [splitOnChar, if_neg hx] at h
      split at h
      · rename_i p ps hrec
        simp only [List.cons.injEq] at h
        obtain ⟨rfl, h2⟩ := h
        rw [h2] at hrec
        obtain ⟨rfl, hnp, hnb⟩ := ih hrec
        refine ⟨rfl, ?_, hnb⟩
        simp only [List.mem_cons, not_or]
        exact ⟨fun he => hx he.symm, hnp⟩
      · rename_i hrec
        exact absurd hrec (splitOnChar_ne_nil c t)

/-- Counting `=` only sees the structural subsequence. -/
theorem count_equals_of_filter {l1 l2 : List Char}
    (h : l1.filter isStructuralChar = l2.filter isStructuralChar) :
    l1.count '=' = l2.count '=' := by
  have key : ∀ l : List Char, l.count '=' = (l.filter isStructuralChar).count '=' := by
    intro l
    rw [List.count_eq_countP, List.count_eq_countP, List.countP_filter]
    apply List.countP_congr
    intro b _
    constructor
    · intro hb
      have : b = '=' := by simpa using hb
      subst this
      decide
    · intro hb
      simpa using (Bool.and_elim_left hb)
  rw [key l1, key l2, h]

/-- Claim C7 (corrected): in every successfully constructed `Equation`
exactly one `=` survives in the sanitized equation, the stored sides are
the pieces around it and contain no `=` themselves — but the sides are
not guaranteed non-empty (see the counterexample `x=`). -/
theorem C7_single_equals_invariant (s : String) (e : Equation)
    (h : equationInit s = .ok e) :
    process_equation e.equation = .ok (e.left_hand_side ++ "=" ++ e.right_hand_side) ∧
    '=' ∉ e.left_hand_side.toList ∧ '=' ∉ e.right_hand_side.toList ∧
    e.equation.toList.count '=' = 1 := by
  unfold equationInit at h
  cases hval : validate_equation s with
  | some err => simp only [hval] at h; exact Except.noConfusion h
  | none =>
    simp only [hval] at h
    cases hproc : process_equation (sanitize_equation s) with
    | error err => simp only [hproc] at h; exact Except.noConfusion h
    | ok processed =>
      simp only [hproc] at h
      split at h
      · rename_i l r hsplit
        injection h with h1
        subst h1
        obtain ⟨hl, hnl, hnr⟩ := splitOnChar_two hsplit
        have hpr : processed = String.mk l ++ "=" ++ String.mk r := by
          have h2 : processed = String.mk processed.toList := (mk_toList processed).symm
          rw [h2, hl]
          show String.mk (l ++ '=' :: r) = String.mk ((l ++ ['=']) ++ r)
          simp
        refine ⟨?_, by simpa using hnl, by simpa using hnr, ?_⟩
        · show process_equation (sanitize_equation s) = _
          rw [hproc, hpr]
        · show (sanitize_equation s).toList.count '=' = 1
          have hcount := count_equals_of_filter (process_equation_filter hproc)
          rw [← hcount, hl, List.count_append]
          rw [List.count_eq_zero.mpr hnl, List.count_cons]
          rw [List.count_eq_zero.mpr hnr]
          decide
      · exact Except.noConfusion h

/-- Claim C7 witness: the surviving invariant applied to the concrete
input `x=1`. -/
theorem C7_single_equals_invariant_witness :
    process_equation ("x=1" : String) = .ok ("x" ++ "=" ++ "1") ∧
    '=' ∉ ("x" : String).toList ∧ '=' ∉ ("1" : String).toList ∧
    ("x=1" : String).toList.count '=' = 1 :=
  C7_single_equals_invariant "x=1"
    { equation := "x=1", left_hand_side := "x", right_hand_side := "1" } (by decide)

/-- Claim C7 counterexample: the input `x=` constructs an `Equation`
whose right-hand side is the empty string — the non-emptiness half of
the claimed invariant fails. -/
theorem C7_counterexample_empty_side :
    equationInit "x=" = .ok { equation := "x=", left_hand_side := "x", right_hand_side := "" } :=
  by decide
